import Mathlib

/-!
# Verification of the pamseam-rs seam-carving core

A shallow embedding, in Lean 4, of the seam-carving engine of the
`pamseam-rs` repository, together with proofs and refutations of the
specification claims about it.

Conventions of the embedding:

* Rust `u32` values are modelled as `Nat` together with explicit wrapping
  (`% 2^32`) at every arithmetic site where the Rust source performs `u32`
  arithmetic; release-mode (wrapping) semantics are used, except where a
  claim is explicitly about the checked (debug) behaviour, for which a
  separate checked definition is provided.
* Fallible operations (out-of-bounds pixel access, out-of-bounds vector
  indexing, `unwrap` on `None`, slice-length mismatch) are modelled in the
  `Option` monad: `none` is a panic of the Rust program.
* An image (the `GenericImageView` the algorithms consume) is modelled as
  its dimensions plus a total pixel function; `getPixel` performs the
  bounds check that the `image` crate performs, and a pixel is identified
  with its luma sample, a `u32` value, which is what every computation in
  the core reads through `to_luma` (the single-channel variant of the
  distance function).
* The scoped-thread row evaluation of `calculate_one_row` partitions the
  columns of a row into disjoint contiguous segments, each computed from
  the immutable previous rows and reassembled in order; its result is
  exactly the sequential left-to-right map of `cost_candidate_pixel` over
  the row, which is how it is embedded here.
-/

namespace PamSeam

/-- `2^32`, the modulus of Rust `u32` arithmetic. -/
def U32 : Nat := 4294967296

/-- Wrapping `u32` addition. -/
def addu (a b : Nat) : Nat := (a + b) % U32

/-- Wrapping `u32` multiplication. -/
def mulu (a b : Nat) : Nat := (a * b) % U32

/-- Wrapping `u32` subtraction (for `a`, `b` already reduced mod `2^32`). -/
def subu (a b : Nat) : Nat := (a + (U32 - b)) % U32

/-- Wrapping `u32` decrement, the `width - 1` / `height - 1` idiom of the
source; wraps to `2^32 - 1` when the argument is `0`. -/
def wsub1 (n : Nat) : Nat := (n + (U32 - 1)) % U32

/-- `energy_of_pair_luma` from `src/pixelpairs.rs` under wrapping (release)
semantics: `let css = luma(p1) - luma(p2); css * css`, the luma samples
being the `u32` casts of the pixels' luma channels. -/
def energy_of_pair_luma (p1 p2 : Nat) : Nat :=
  let css := subu p1 p2
  mulu css css

/-- `energy_of_pair_luma` under checked (debug) semantics: the subtraction
panics (`none`) on underflow and the multiplication panics on overflow. -/
def energy_of_pair_luma_checked (p1 p2 : Nat) : Option Nat :=
  if p2 ≤ p1 then
    let css := p1 - p2
    if css * css < U32 then some (css * css) else none
  else none

/-- An image as the core consumes it through `GenericImageView`:
dimensions plus a total pixel function.  A pixel is identified with its
luma sample (a `u32` value); only coordinates inside the bounds are ever
meaningful, and `Image.getPixel` enforces the bounds check that the
`image` crate's `get_pixel` performs. -/
structure Image where
  width : Nat
  height : Nat
  pix : Nat → Nat → Nat

/-- `get_pixel` of the `image` crate: panics (`none`) when the coordinate
is out of bounds. -/
def Image.getPixel (img : Image) (x y : Nat) : Option Nat :=
  if x < img.width ∧ y < img.height then some (img.pix x y) else none

/-- The `Flipper` adapter from `src/flipper.rs`: swaps width with height
and `(x, y)` with `(y, x)` on every query. -/
def Image.flip (img : Image) : Image :=
  ⟨img.height, img.width, fun x y => img.pix y x⟩

/-- `ImageBuffer::new(w, h)` followed by copying every pixel of `img`
into it, as the `carve` orchestrator initializes its scratch buffer:
a fresh buffer of zeros overwritten with `img`'s pixels at every
in-bounds coordinate. -/
def Image.copy (img : Image) : Image :=
  ⟨img.width, img.height,
    fun x y => if x < img.width ∧ y < img.height then img.pix x y else 0⟩

/-- Pixel-for-pixel equality: same dimensions, same samples at every
in-bounds coordinate. -/
def Image.equiv (a b : Image) : Prop :=
  a.width = b.width ∧ a.height = b.height ∧
    ∀ x y, x < a.width → y < a.height → a.pix x y = b.pix x y

/-- `EnergyAndBackPointer<u32>` from `src/twodmap.rs`. -/
structure EnergyAndBackPointer where
  energy : Nat
  parent : Nat
deriving Repr, DecidableEq

instance : Inhabited EnergyAndBackPointer := ⟨⟨0, 0⟩⟩

/-- `TwoDimensionalMap<P>` from `src/twodmap.rs`: a flat row-major
vector of `width * height` cells. -/
structure TwoDMap (P : Type) where
  width : Nat
  height : Nat
  cells : List P
deriving Repr, DecidableEq

/-- `TwoDimensionalMap::new`: a `width * height` vector of defaults. -/
def TwoDMap.new (P : Type) [Inhabited P] (width height : Nat) : TwoDMap P :=
  ⟨width, height, List.replicate (width * height) default⟩

/-- The `Index` impl of `TwoDimensionalMap`: computes the flat index
`y * width + x` and indexes the vector, panicking (`none`) only when the
flat index is out of range of the vector (the source performs no per-axis
bounds check). -/
def TwoDMap.get (m : TwoDMap P) (x y : Nat) : Option P :=
  m.cells[y * m.width + x]?

/-- The `IndexMut` impl of `TwoDimensionalMap`: writes through the flat
index `y * width + x`, panicking (`none`) when it is out of range. -/
def TwoDMap.set (m : TwoDMap P) (x y : Nat) (v : P) : Option (TwoDMap P) :=
  if y * m.width + x < m.cells.length then
    some ⟨m.width, m.height, m.cells.set (y * m.width + x) v⟩
  else none

/-- Modelled from the spec: `TwoDimensionalMap::get_mut_row`, which is
called by `calculate_cost` (`src/avisha2.rs`) but is absent from
`src/twodmap.rs`.  Per the spec's parallel strategy, each worker "writes
only its own segment of the new row" and the segments are copied back
over row `y` of the grid, so the method yields the mutable slice
`[y*width, y*width + width)` of the flat vector; `copy_from_slice` onto
it panics (`none`) when the slice is out of range or the lengths
mismatch. -/
def TwoDMap.setRow (m : TwoDMap P) (y : Nat) (row : List P) : Option (TwoDMap P) :=
  if row.length = m.width ∧ y * m.width + m.width ≤ m.cells.length then
    some ⟨m.width, m.height,
      m.cells.take (y * m.width) ++ row ++ m.cells.drop (y * m.width + m.width)⟩
  else none

/-- Left-to-right traversal of `f 0, f 1, …, f (n-1)`, failing if any
evaluation fails: the `Option` image of a Rust loop that pushes `f x`
for each `x` and panics at the first failing iteration. -/
def optMapRange (f : Nat → Option α) : Nat → Option (List α)
  | 0 => some []
  | n + 1 => do
      let xs ← optMapRange f n
      let x ← f n
      pure (xs ++ [x])

/-- Left-to-right effectful fold over a list, failing if any step
fails: the `Option` image of a Rust `for` loop threading mutable
state. -/
def optFoldList (f : σ → α → Option σ) (init : σ) : List α → Option σ
  | [] => some init
  | a :: as => do
      let s ← f init a
      optFoldList f s as

/-- Rust's `Iterator::min_by_key` over a list of `(index, key)` pairs:
returns the first pair achieving the minimal key, or `none` on an empty
list (whose `unwrap` panics). -/
def firstMinSnd : List (Nat × Nat) → Option (Nat × Nat)
  | [] => none
  | p :: ps => some (ps.foldl (fun best c => if c.2 < best.2 then c else best) p)

/-!
## The forward-energy cost builder (`src/avisha2.rs`)
-/

/-- The `epp` closure of `cost_candidate_pixel`: the pixel-pair energy of
two coordinates of the image. -/
def eppO (img : Image) (x1 y1 x2 y2 : Nat) : Option Nat := do
  let a ← img.getPixel x1 y1
  let b ← img.getPixel x2 y2
  pure (energy_of_pair_luma a b)

/-- The `cost_up` computation of `cost_candidate_pixel`
(`src/avisha2.rs` lines 75–81): the pair energy of the clamped left and
right neighbours **at the row above** (`y_above = y - 1`). -/
def ccpCostUp (img : Image) (x y : Nat) : Option Nat :=
  let ya := wsub1 y
  let mw := wsub1 img.width
  if x = 0 then eppO img x ya (x + 1) ya
  else if x = mw then eppO img (x - 1) ya x ya
  else eppO img (x - 1) ya (x + 1) ya

/-- The `ccc` closure of `cost_candidate_pixel`: evaluates the diagonal
candidate through column `x_above` of the row above and keeps it only if
it is strictly cheaper than the current best. -/
def cccStep (img : Image) (emap : TwoDMap EnergyAndBackPointer) (x y : Nat)
    (cost_up : Nat) (x_above : Nat) (current : EnergyAndBackPointer) :
    Option EnergyAndBackPointer := do
  let e ← emap.get x_above (wsub1 y)
  let d ← eppO img x (wsub1 y) x_above y
  let n := addu (addu cost_up e.energy) d
  pure (if n < current.energy then ⟨n, x_above⟩ else current)

/-- `cost_candidate_pixel` from `src/avisha2.rs`: starts from the `up`
candidate, then lets `ccc` consider `x - 1` (when `x ≠ 0`) and `x + 1`
(when `x ≠ max_width`), a strictly-cheaper candidate replacing the
current one. -/
def cost_candidate_pixel (img : Image) (emap : TwoDMap EnergyAndBackPointer)
    (x y : Nat) : Option EnergyAndBackPointer := do
  let cost_up ← ccpCostUp img x y
  let e0 ← emap.get x (wsub1 y)
  let current0 : EnergyAndBackPointer := ⟨addu cost_up e0.energy, x⟩
  let cur1 ← if x ≠ 0 then cccStep img emap x y cost_up (x - 1) current0
             else pure current0
  if x ≠ wsub1 img.width then cccStep img emap x y cost_up (x + 1) cur1
  else pure cur1

/-- The `nebp` closure of `calculate_cost`: a cell seeded from the pair
energy of two coordinates, with the given parent. -/
def nebp (img : Image) (xl yl xr yr parent : Nat) : Option EnergyAndBackPointer := do
  let a ← img.getPixel xl yl
  let b ← img.getPixel xr yr
  pure ⟨energy_of_pair_luma a b, parent⟩

/-- `calculate_cost` from `src/avisha2.rs`: seeds the two top corners and
the rest of the top row from horizontal-neighbour energies (parent `0`),
then fills each subsequent row `y ∈ [1, height)` with
`cost_candidate_pixel` evaluated left to right against the rows already
materialized, writing the row back wholesale.  The scoped-thread segment
evaluation of `calculate_one_row` computes exactly this row (disjoint
contiguous segments of the same per-column function, reassembled in
order). -/
def calculate_cost (img : Image) : Option (TwoDMap EnergyAndBackPointer) := do
  let w := img.width
  let h := img.height
  let emap0 := TwoDMap.new EnergyAndBackPointer w h
  let mw := wsub1 w
  let e1 ← nebp img 0 0 1 0 0
  let emap1 ← emap0.set 0 0 e1
  let e2 ← nebp img (wsub1 mw) 0 mw 0 0
  let emap2 ← emap1.set mw 0 e2
  let emap3 ← optFoldList (fun m x => do
      let e ← nebp img (x - 1) 0 (x + 1) 0 0
      m.set x 0 e) emap2 (List.range' 1 (mw - 1))
  optFoldList (fun m y => do
      let row ← optMapRange (fun x => cost_candidate_pixel img m x y) w
      m.setRow y row) emap3 (List.range' 1 (h - 1))

/-- The back-pointer trace shared by `energy_to_seam` (`src/avisha2.rs`)
and the vertical trace of `src/avisha1.rs`: starting at column `col` of
row `y`, push the current column and step to its parent, down to row `0`
(whose parent is read and discarded), producing the seam in top-to-bottom
order. -/
def traceSeam (emap : TwoDMap EnergyAndBackPointer) : Nat → Nat → Option (List Nat)
  | col, 0 => do
      let _ ← emap.get col 0
      pure [col]
  | col, y + 1 => do
      let c ← emap.get col (y + 1)
      let rest ← traceSeam emap c.parent y
      pure (rest ++ [col])

/-- `energy_to_seam` from `src/avisha2.rs` (the identical trace also ends
`energy_to_vertical_seam` in `src/avisha1.rs`): pick the column of the
bottom row with the least cumulative energy (first minimum wins,
`unwrap` panicking on an empty width) and walk the back-pointers up. -/
def energy_to_seam (emap : TwoDMap EnergyAndBackPointer) : Option (List Nat) := do
  let lastRow := wsub1 emap.height
  let keyed ← optMapRange
      (fun x => (emap.get x lastRow).map (fun c => (x, c.energy))) emap.width
  let pk ← firstMinSnd keyed
  traceSeam emap pk.1 lastRow

/-- `AviShaTwo::find_vertical_seam`. -/
def find_vertical_seam (img : Image) : Option (List Nat) :=
  (calculate_cost img).bind energy_to_seam

/-- `AviShaTwo::find_horizontal_seam`: the vertical algorithm run on the
`Flipper` view. -/
def find_horizontal_seam (img : Image) : Option (List Nat) :=
  (calculate_cost img.flip).bind energy_to_seam

/-!
## The seam remover and the carve orchestrator (`src/seamcarver.rs`)
-/

/-- `ImageBuffer::put_pixel`: panics (`none`) out of bounds, otherwise
overwrites the sample at `(x, y)`. -/
def Image.putPixel (img : Image) (x y p : Nat) : Option Image :=
  if x < img.width ∧ y < img.height then
    some ⟨img.width, img.height,
      fun a b => if a = x ∧ b = y then p else img.pix a b⟩
  else none

/-- `remove_vertical_seam` from `src/seamcarver.rs`: a fresh buffer one
column narrower; for each `y` and each `x` in ascending order, the pixel
at `(x, y)` is written to column `x` when `x < seam[y] || x == 0` and to
column `x - 1` otherwise (later writes overwrite earlier ones). -/
def remove_vertical_seam (img : Image) (seam : List Nat) : Option Image :=
  let buf0 : Image := ⟨wsub1 img.width, img.height, fun _ _ => 0⟩
  optFoldList (fun buf y =>
    optFoldList (fun buf x => do
      let p ← img.getPixel x y
      let s ← seam[y]?
      buf.putPixel (if x < s ∨ x = 0 then x else x - 1) y p)
      buf (List.range img.width)) buf0 (List.range img.height)

/-- `remove_horizontal_seam` from `src/seamcarver.rs`: the row analogue
of `remove_vertical_seam`, one row shorter, writing the pixel at `(x, y)`
to row `y` when `y < seam[x] || y == 0` and to row `y - 1` otherwise. -/
def remove_horizontal_seam (img : Image) (seam : List Nat) : Option Image :=
  let buf0 : Image := ⟨img.width, wsub1 img.height, fun _ _ => 0⟩
  optFoldList (fun buf y =>
    optFoldList (fun buf x => do
      let p ← img.getPixel x y
      let s ← seam[x]?
      buf.putPixel x (if y < s ∨ y = 0 then y else y - 1) p)
      buf (List.range img.width)) buf0 (List.range img.height)

/-- The `Carve` direction enum of `src/seamcarver.rs`. -/
inductive Carve
  | width
  | height
deriving DecidableEq

/-- `Carve::turn`. -/
def Carve.turn : Carve → Carve
  | .width => .height
  | .height => .width

/-- `carveonce` from `src/seamcarver.rs`: find a seam along the requested
axis with `AviShaTwo` and remove it. -/
def carveonce (img : Image) (direction : Carve) : Option Image :=
  if direction = Carve.height then
    (find_horizontal_seam img).bind (remove_horizontal_seam img)
  else
    (find_vertical_seam img).bind (remove_vertical_seam img)

/-- The outcome of `SeamCarver::carve`: `Ok(image)`, `Err(message)`, or a
panic inside an iteration. -/
inductive CarveResult
  | ok (img : Image)
  | err (msg : String)
  | panic

/-- The first `while` loop of `carve`: while both dimensions exceed their
targets, carve along the current direction and turn.  Fuel-indexed: each
successful iteration shrinks one `u32` dimension by one, so the
`width + height` fuel supplied by `carve` can never run out on an input
with `u32`-representable dimensions; exhaustion is mapped to `none`. -/
def carveBothLoop (nw nh : Nat) : Nat → Image → Carve → Option Image
  | 0, img, _ =>
      if nw < img.width ∧ nh < img.height then none else some img
  | fuel + 1, img, dir =>
      if nw < img.width ∧ nh < img.height then
        match carveonce img dir with
        | none => none
        | some next => carveBothLoop nw nh fuel next dir.turn
      else some img

/-- The second `while` loop of `carve`: carve the width down to `nw`. -/
def carveWidthLoop (nw : Nat) : Nat → Image → Option Image
  | 0, img => if nw < img.width then none else some img
  | fuel + 1, img =>
      if nw < img.width then
        match carveonce img Carve.width with
        | none => none
        | some next => carveWidthLoop nw fuel next
      else some img

/-- The third `while` loop of `carve`: carve the height down to `nh`. -/
def carveHeightLoop (nh : Nat) : Nat → Image → Option Image
  | 0, img => if nh < img.height then none else some img
  | fuel + 1, img =>
      if nh < img.height then
        match carveonce img Carve.height with
        | none => none
        | some next => carveHeightLoop nh fuel next
      else some img

/-- `SeamCarver::carve`: reject upscaling before any iteration, copy the
image into a scratch buffer, then run the three carving loops. -/
def carve (img : Image) (newwidth newheight : Nat) : CarveResult :=
  if img.width < newwidth ∨ img.height < newheight then
    .err "seamcarve cannot upscale an image"
  else
    let scratch := img.copy
    let fuel := img.width + img.height
    match carveBothLoop newwidth newheight fuel scratch Carve.width with
    | none => .panic
    | some i1 =>
        match carveWidthLoop newwidth fuel i1 with
        | none => .panic
        | some i2 =>
            match carveHeightLoop newheight fuel i2 with
            | none => .panic
            | some i3 => .ok i3

/-!
## The base-energy dynamic programs (`src/avisha1.rs`)
-/

/-- The inclusive candidate range `cq!(x == 0, 0, x-1) ..= cq!(x == max,
max, x+1)` of the `src/avisha1.rs` dynamic programs, as the ascending
list of its elements. -/
def avisha1Range (x mx : Nat) : List Nat :=
  let lo := if x = 0 then 0 else x - 1
  let hi := if x = mx then mx else x + 1
  List.range' lo (hi + 1 - lo)

/-- The keys inspected by `min_by_key` in the `src/avisha1.rs` dynamic
programs: for each candidate index `j`, the cumulative energy of the
predecessor cell `getc j`, read left to right, panicking (`none`) on an
out-of-range access. -/
def keyedCells (getc : Nat → Option EnergyAndBackPointer) :
    List Nat → Option (List (Nat × Nat))
  | [] => some []
  | j :: js => do
      let c ← getc j
      let rest ← keyedCells getc js
      pure ((j, c.energy) :: rest)

/-- One cell update of `energy_to_vertical_seam` (`src/avisha1.rs` lines
79–90): add the cell's own energy to the cumulative energy of the
minimal predecessor among columns `x-1 ..= x+1` of the row above
(`min_by_key`, first minimum wins over the ascending range), recording
that predecessor's column as parent. -/
def avisha1_cellV (energy : TwoDMap Nat) (target : TwoDMap EnergyAndBackPointer)
    (maxwidth x y : Nat) : Option EnergyAndBackPointer := do
  let erg ← energy.get x y
  let cs ← keyedCells (fun j => target.get j (y - 1)) (avisha1Range x maxwidth)
  let pk ← firstMinSnd cs
  let parent ← target.get pk.1 (y - 1)
  pure ⟨addu erg parent.energy, pk.1⟩

/-- The dynamic-program table of `energy_to_vertical_seam`
(`src/avisha1.rs` lines 66–90): first row seeded with the raw energies
(parents left at the default `0`), every later row filled left to right
with `avisha1_cellV`. -/
def avisha1_fillV (energy : TwoDMap Nat) : Option (TwoDMap EnergyAndBackPointer) := do
  let w := energy.width
  let h := energy.height
  let t0 := TwoDMap.new EnergyAndBackPointer w h
  let t1 ← optFoldList (fun t i => do
      let e ← energy.get i 0
      let old ← t.get i 0
      t.set i 0 ⟨e, old.parent⟩) t0 (List.range w)
  let mw := wsub1 w
  optFoldList (fun t y =>
      optFoldList (fun t x => do
          let c ← avisha1_cellV energy t mw x y
          t.set x y c) t (List.range w)) t1 (List.range' 1 (h - 1))

/-- `energy_to_vertical_seam` from `src/avisha1.rs`: fill the table, then
run the same bottom-row-minimum back-pointer trace as `energy_to_seam`
(the trace code of lines 92–107 is identical to `src/avisha2.rs` lines
216–231). -/
def energy_to_vertical_seam (energy : TwoDMap Nat) : Option (List Nat) :=
  (avisha1_fillV energy).bind energy_to_seam

/-- One cell update of `energy_to_horizontal_seam` (`src/avisha1.rs`
lines 131–141): the column-major mirror of `avisha1_cellV`, the
candidates being rows `y-1 ..= y+1` of the column to the left. -/
def avisha1_cellH (energy : TwoDMap Nat) (target : TwoDMap EnergyAndBackPointer)
    (maxheight x y : Nat) : Option EnergyAndBackPointer := do
  let erg ← energy.get x y
  let cs ← keyedCells (fun j => target.get (x - 1) j) (avisha1Range y maxheight)
  let pk ← firstMinSnd cs
  let parent ← target.get (x - 1) pk.1
  pure ⟨addu erg parent.energy, pk.1⟩

/-- The dynamic-program table of `energy_to_horizontal_seam`
(`src/avisha1.rs` lines 119–141): first column seeded with the raw
energies, every later column filled top to bottom with
`avisha1_cellH`. -/
def avisha1_fillH (energy : TwoDMap Nat) : Option (TwoDMap EnergyAndBackPointer) := do
  let w := energy.width
  let h := energy.height
  let t0 := TwoDMap.new EnergyAndBackPointer w h
  let t1 ← optFoldList (fun t i => do
      let e ← energy.get 0 i
      let old ← t.get 0 i
      t.set 0 i ⟨e, old.parent⟩) t0 (List.range h)
  let mh := wsub1 h
  optFoldList (fun t x =>
      optFoldList (fun t y => do
          let c ← avisha1_cellH energy t mh x y
          t.set x y c) t (List.range h)) t1 (List.range' 1 (w - 1))

/-- The backward trace of `energy_to_horizontal_seam`: starting at row
`col` of column `x`, push the current row and step to its parent, down to
column `0` (whose parent is read and discarded). -/
def traceSeamH (t : TwoDMap EnergyAndBackPointer) : Nat → Nat → Option (List Nat)
  | col, 0 => do
      let _ ← t.get 0 col
      pure [col]
  | col, x + 1 => do
      let c ← t.get (x + 1) col
      let rest ← traceSeamH t c.parent x
      pure (rest ++ [col])

/-- `energy_to_horizontal_seam` from `src/avisha1.rs`: fill the table,
pick the row of the rightmost column with the least cumulative energy
(first minimum wins), and walk the back-pointers left. -/
def energy_to_horizontal_seam (energy : TwoDMap Nat) : Option (List Nat) := do
  let t ← avisha1_fillH energy
  let lastCol := wsub1 t.width
  let keyed ← optMapRange
      (fun j => (t.get lastCol j).map (fun c => (j, c.energy))) t.height
  let pk ← firstMinSnd keyed
  traceSeamH t pk.1 lastCol

/-!
## Specification-side comparison definitions

These definitions follow the words of the spec and of the claims (never
the source); each is compared against the corresponding source-derived
definition above.
-/

/-- The forward-energy cell update exactly as claim C2 (and the comment
block of `src/avisha2.rs`, lines 30–56) states it: the `up` transition
cost is the pair energy of the clamped left and right neighbours of
`(x, y)` **at row `y`**; `up-left` adds the energy of the pair
`(x, y-1), (x-1, y)` to the up-cost, `up-right` the pair
`(x, y-1), (x+1, y)`; each candidate totals its transition cost with the
predecessor's cumulative cost, the minimum winning with first-candidate
tie order up, up-left, up-right.  Written with plain natural arithmetic,
as the spec states the mathematics. -/
def cost_candidate_pixel_spec (img : Image) (emap : TwoDMap EnergyAndBackPointer)
    (x y : Nat) : Option EnergyAndBackPointer := do
  let mw := img.width - 1
  let cost_up ←
    if x = 0 then eppO img x y (x + 1) y
    else if x = mw then eppO img (x - 1) y x y
    else eppO img (x - 1) y (x + 1) y
  let e0 ← emap.get x (y - 1)
  let current0 : EnergyAndBackPointer := ⟨cost_up + e0.energy, x⟩
  let consider := fun (x_above : Nat) (current : EnergyAndBackPointer) => do
    let e ← emap.get x_above (y - 1)
    let d ← eppO img x (y - 1) x_above y
    let n := cost_up + e.energy + d
    pure (if n < current.energy then (⟨n, x_above⟩ : EnergyAndBackPointer) else current)
  let cur1 ← if x ≠ 0 then consider (x - 1) current0 else pure current0
  if x ≠ mw then consider (x + 1) cur1 else pure cur1

/-- The total cost of the `up` candidate of `cost_candidate_pixel`:
`cost_up + energy[(x, y_above)].energy` (a subterm of the source
function, named so that theorems can speak about the candidates). -/
def ccpTotalUp (img : Image) (emap : TwoDMap EnergyAndBackPointer)
    (x y : Nat) : Option Nat := do
  let cu ← ccpCostUp img x y
  let e ← emap.get x (wsub1 y)
  pure (addu cu e.energy)

/-- The total cost of the diagonal candidate of `cost_candidate_pixel`
through column `x_above`: `cost_up + energy[(x_above, y_above)].energy +
epp((x, y_above), (x_above, y))`. -/
def ccpTotalSide (img : Image) (emap : TwoDMap EnergyAndBackPointer)
    (x y x_above : Nat) : Option Nat := do
  let cu ← ccpCostUp img x y
  let e ← emap.get x_above (wsub1 y)
  let d ← eppO img x (wsub1 y) x_above y
  pure (addu (addu cu e.energy) d)

/-- The candidate list of `cost_candidate_pixel` in the evaluation order
that claim C3 states (up first, then up-left when `x ≠ 0`, then up-right
when `x ≠ max_width`), each candidate tagged with the column it came
from. -/
def ccpCandidates (img : Image) (emap : TwoDMap EnergyAndBackPointer)
    (x y : Nat) : Option (List (Nat × Nat)) := do
  let tu ← ccpTotalUp img emap x y
  let ul ← if x ≠ 0 then (ccpTotalSide img emap x y (x - 1)).map (fun t => [(x - 1, t)])
           else pure []
  let ur ← if x ≠ wsub1 img.width then
             (ccpTotalSide img emap x y (x + 1)).map (fun t => [(x + 1, t)])
           else pure []
  pure ((x, tu) :: (ul ++ ur))

/-- Adjacency of a seam, property `|seam[i+1] − seam[i]| ≤ 1` stated over
naturals. -/
def Adjacent (s : List Nat) : Prop :=
  ∀ i a b, s[i]? = some a → s[i + 1]? = some b → b ≤ a + 1 ∧ a ≤ b + 1

/-- A back-pointer within distance one of its own column and inside the
width: the well-formedness the seam tracer relies on. -/
def ParentNear (w x : Nat) (c : EnergyAndBackPointer) : Prop :=
  c.parent < w ∧ c.parent ≤ x + 1 ∧ x ≤ c.parent + 1

/-- Rows `1 ≤ y < h` of a cost map all hold cells with near, in-range
parents. -/
def GoodParents (emap : TwoDMap EnergyAndBackPointer) : Prop :=
  ∀ x y, x < emap.width → 1 ≤ y → y < emap.height →
    ∃ c, emap.get x y = some c ∧ ParentNear emap.width x c

/-!
## Concrete fixtures used by the counterexamples and witnesses
-/

/-- The 5×4 grayscale energy grid of the repository's tests
(`src/avisha1.rs`, `ENERGY_DATA`). -/
def fixtureEnergy : TwoDMap Nat :=
  ⟨5, 4, [9, 9, 0, 9, 9, 9, 1, 9, 8, 9, 9, 9, 9, 9, 0, 9, 9, 9, 0, 9]⟩

/-- A 2×1 image with pixels `[10, 20]`. -/
def imgTwoWide : Image := ⟨2, 1, fun x _ => if x = 0 then 10 else 20⟩

/-- A 1×2 image with pixels `[10, 20]` stacked vertically. -/
def imgTwoTall : Image := ⟨1, 2, fun _ y => if y = 0 then 10 else 20⟩

/-- A 2×2 image whose only nonzero sample sits at `(1, 0)`. -/
def imgC2 : Image := ⟨2, 2, fun x y => if x = 1 ∧ y = 0 then 3 else 0⟩

/-- A 2×2 cost map of four zero cells. -/
def emapC2 : TwoDMap EnergyAndBackPointer := ⟨2, 2, [⟨0, 0⟩, ⟨0, 0⟩, ⟨0, 0⟩, ⟨0, 0⟩]⟩

/-- A 2×2 energy grid on which the `up` and `up-left` candidates of cell
`(1, 1)` tie and the tie decides the traced seam. -/
def gridC3 : TwoDMap Nat := ⟨2, 2, [0, 0, 9, 0]⟩

/-- A degenerate 1×2 image. -/
def imgDegenerate : Image := ⟨1, 2, fun _ _ => 0⟩

/-- A 2×2 image with four distinct samples. -/
def imgWitness : Image := ⟨2, 2, fun x y => 3 * x + 5 * y + 7⟩

/-!
## Arithmetic facts about the wrapping helpers
-/

theorem wsub1_eq_sub_one {n : Nat} (h1 : 1 ≤ n) (h2 : n < U32) :
    wsub1 n = n - 1 := by
  unfold wsub1 U32 at *
  omega

theorem subu_eq_sub {a b : Nat} (hba : b ≤ a) (ha : a < U32) :
    subu a b = a - b := by
  unfold subu U32 at *
  omega

theorem subu_underflow {a b : Nat} (hab : a < b) (hb : b < U32) :
    subu a b = U32 - (b - a) := by
  unfold subu U32 at *
  omega

theorem neg_sq_mod (d : Nat) (hd : d ≤ U32) :
    (U32 - d) * (U32 - d) % U32 = d * d % U32 := by
  have h1 : (U32 - d) * (U32 - d) + U32 * (2 * d) = U32 * U32 + d * d := by
    zify [hd]
    ring
  calc (U32 - d) * (U32 - d) % U32
      = ((U32 - d) * (U32 - d) + U32 * (2 * d)) % U32 :=
        (Nat.add_mul_mod_self_left _ _ _).symm
    _ = (U32 * U32 + d * d) % U32 := by rw [h1]
    _ = d * d % U32 := by rw [Nat.mul_add_mod]

theorem energy_pair_symm_aux {a b : Nat} (hba : b ≤ a) (ha : a < U32) :
    energy_of_pair_luma a b = energy_of_pair_luma b a := by
  rcases Nat.eq_or_lt_of_le hba with heq | hlt
  · rw [heq]
  · have h1 : subu a b = a - b := subu_eq_sub hba ha
    have h2 : subu b a = U32 - (a - b) := subu_underflow hlt ha
    unfold energy_of_pair_luma mulu
    rw [h1, h2]
    exact (neg_sq_mod (a - b) (by unfold U32 at *; omega)).symm

theorem energy_pair_small {a b : Nat} (hba : b ≤ a) (ha : a < 65536) :
    energy_of_pair_luma a b = (a - b) * (a - b) := by
  have haU : a < U32 := by unfold U32; omega
  unfold energy_of_pair_luma mulu
  rw [subu_eq_sub hba haU]
  have hd : a - b < 65536 := by omega
  have : (a - b) * (a - b) < 65536 * 65536 := Nat.mul_lt_mul'' hd hd
  exact Nat.mod_eq_of_lt (by unfold U32; omega)

/-- C9: the pixel-pair distance `energy_of_pair_luma` is symmetric, and,
absent overflow (luma samples below `2^16`, so that the squared
difference is exact in `u32`), it is zero exactly when the two samples
are equal (channel-wise equality of single-channel luma samples being
equality of the samples). -/
theorem c9_energy_pair_symm_zero_iff (p1 p2 : Nat) (h1 : p1 < U32) (h2 : p2 < U32) :
    energy_of_pair_luma p1 p2 = energy_of_pair_luma p2 p1 ∧
      (p1 < 65536 → p2 < 65536 → (energy_of_pair_luma p1 p2 = 0 ↔ p1 = p2)) := by
  constructor
  · rcases le_total p2 p1 with h | h
    · exact energy_pair_symm_aux h h1
    · exact (energy_pair_symm_aux h h2).symm
  · intro hs1 hs2
    constructor
    · intro h0
      rcases le_total p2 p1 with h | h
      · have := energy_pair_small h hs1
        rw [this] at h0
        have : p1 - p2 = 0 := by
          rcases Nat.eq_zero_or_pos (p1 - p2) with hz | hp
          · exact hz
          · exact absurd h0 (by positivity)
        omega
      · have hsymm := energy_pair_symm_aux h h2
        rw [← hsymm] at h0
        have := energy_pair_small h hs2
        rw [this] at h0
        have : p2 - p1 = 0 := by
          rcases Nat.eq_zero_or_pos (p2 - p1) with hz | hp
          · exact hz
          · exact absurd h0 (by positivity)
        omega
    · intro heq
      rw [heq, energy_pair_small (le_refl p2) hs2]
      simp

/-- Witness for C9 at the samples `3` and `5`. -/
theorem c9_energy_pair_symm_zero_iff_witness :
    energy_of_pair_luma 3 5 = energy_of_pair_luma 5 3 ∧
      (energy_of_pair_luma 3 5 = 0 ↔ (3 : Nat) = 5) := by
  have h := c9_energy_pair_symm_zero_iff 3 5 (by norm_num [U32]) (by norm_num [U32])
  exact ⟨h.1, h.2 (by norm_num) (by norm_num)⟩

/-- C10: the luma difference is an unchecked `u32` subtraction.  Under
checked (debug) semantics it is defined exactly when the second sample
does not exceed the first; under wrapping (release) semantics the
function is total and, for samples below `2^16`, still returns the exact
square of the absolute difference regardless of the argument order. -/
theorem c10_luma_sub_wrapping (p1 p2 : Nat) (h1 : p1 < 65536) (h2 : p2 < 65536) :
    energy_of_pair_luma p1 p2 =
        (if p2 ≤ p1 then p1 - p2 else p2 - p1) *
          (if p2 ≤ p1 then p1 - p2 else p2 - p1) ∧
      ((energy_of_pair_luma_checked p1 p2).isSome ↔ p2 ≤ p1) := by
  rcases le_or_lt p2 p1 with h | h
  · refine ⟨?_, ?_⟩
    · rw [if_pos h]
      exact energy_pair_small h h1
    · unfold energy_of_pair_luma_checked
      rw [if_pos h, if_pos (by unfold U32; nlinarith [Nat.sub_le p1 p2])]
      simpa using h
  · refine ⟨?_, ?_⟩
    · rw [if_neg (by omega)]
      have hsymm := energy_pair_symm_aux (le_of_lt h) (by unfold U32; omega)
      rw [← hsymm]
      exact energy_pair_small (le_of_lt h) h2
    · unfold energy_of_pair_luma_checked
      rw [if_neg (by omega)]
      simp [Nat.le_of_lt_succ]
      omega

/-!
## The carve orchestrator: upscale rejection, identity carve, degeneracy
-/

theorem carveBothLoop_noop (nw nh : Nat) (img : Image)
    (h : ¬(nw < img.width ∧ nh < img.height)) (fuel : Nat) (dir : Carve) :
    carveBothLoop nw nh fuel img dir = some img := by
  cases fuel <;> simp [carveBothLoop, h]

theorem carveWidthLoop_noop (nw : Nat) (img : Image)
    (h : ¬nw < img.width) (fuel : Nat) :
    carveWidthLoop nw fuel img = some img := by
  cases fuel <;> simp [carveWidthLoop, h]

theorem carveHeightLoop_noop (nh : Nat) (img : Image)
    (h : ¬nh < img.height) (fuel : Nat) :
    carveHeightLoop nh fuel img = some img := by
  cases fuel <;> simp [carveHeightLoop, h]

theorem calculate_cost_width_one {img : Image} (h : img.width = 1) :
    calculate_cost img = none := by
  have hn : nebp img 0 0 1 0 0 = none := by
    cases hg : img.getPixel 0 0 <;>
      simp [nebp, hg, Image.getPixel, h]
  unfold calculate_cost
  rw [hn]
  rfl

theorem carveonce_width_one {img : Image} (h : img.width = 1) :
    carveonce img Carve.width = none := by
  simp [carveonce, find_vertical_seam, calculate_cost_width_one h]

theorem carveonce_height_one {img : Image} (h : img.height = 1) :
    carveonce img Carve.height = none := by
  have : img.flip.width = 1 := h
  simp [carveonce, find_horizontal_seam, calculate_cost_width_one this]

/-- C5: requesting a target strictly wider or taller than the image makes
`carve` fail with the upscale error before any iteration runs. -/
theorem c5_upscale_rejected (img : Image) (nw nh : Nat)
    (h : img.width < nw ∨ img.height < nh) :
    carve img nw nh = .err "seamcarve cannot upscale an image" := by
  unfold carve
  rw [if_pos h]

/-- Witness for C5: upscaling a 2×1 image to width 3. -/
theorem c5_upscale_rejected_witness :
    carve imgTwoWide 3 1 = .err "seamcarve cannot upscale an image" :=
  c5_upscale_rejected imgTwoWide 3 1 (Or.inl (by norm_num [imgTwoWide]))

/-- C7: carving to the image's current dimensions runs no iteration and
returns the scratch copy, a pixel-for-pixel copy of the input. -/
theorem c7_identity_carve (img : Image) :
    carve img img.width img.height = .ok img.copy ∧ img.copy.equiv img := by
  constructor
  · unfold carve
    rw [if_neg (by omega)]
    have h1 := carveBothLoop_noop img.width img.height img.copy
      (by simp [Image.copy]) (img.width + img.height) Carve.width
    have h2 := carveWidthLoop_noop img.width img.copy
      (by simp [Image.copy]) (img.width + img.height)
    have h3 := carveHeightLoop_noop img.height img.copy
      (by simp [Image.copy]) (img.width + img.height)
    simp [h1, h2, h3]
  · exact ⟨rfl, rfl, fun x y hx hy => by
      simp only [Image.copy] at hx hy ⊢
      exact if_pos ⟨hx, hy⟩⟩

/-- C4 (amended): a degenerate dimension is not rejected with a
DegenerateImage error — no such error exists in the source.  When a seam
is required of an axis of size 1, the cost computation dereferences an
out-of-range pixel (after a `u32` underflow at the top-row seeding) and
the carve aborts with a panic, returning no error value. -/
theorem c4_amended_degenerate_panics :
    (∀ (pix : Nat → Nat → Nat) (h nh : Nat), nh ≤ h →
        carve ⟨1, h, pix⟩ 0 nh = CarveResult.panic) ∧
      (∀ (pix : Nat → Nat → Nat) (w : Nat),
        carve ⟨w, 1, pix⟩ w 0 = CarveResult.panic) := by
  constructor
  · intro pix h nh hle
    unfold carve
    rw [if_neg (by show ¬((1 : Nat) < 0 ∨ h < nh); omega)]
    have hcw : (Image.copy ⟨1, h, pix⟩).width = 1 := rfl
    obtain ⟨k, hk⟩ : ∃ k, (Image.mk 1 h pix).width + (Image.mk 1 h pix).height = k + 1 :=
      ⟨h, by simp [Nat.add_comm]⟩
    rcases Nat.lt_or_ge nh h with hlt | hge
    · have hloop : carveBothLoop 0 nh ((Image.mk 1 h pix).width + (Image.mk 1 h pix).height)
          (Image.copy ⟨1, h, pix⟩) Carve.width = none := by
        rw [hk]
        simp only [carveBothLoop]
        rw [if_pos ⟨by rw [hcw]; omega, by show nh < h; exact hlt⟩,
          carveonce_width_one hcw]
      simp [hloop]
    · have hnh : nh = h := by omega
      have hloop := carveBothLoop_noop 0 nh (Image.copy ⟨1, h, pix⟩)
        (by rw [hcw]; show ¬(0 < 1 ∧ nh < h); omega)
        ((Image.mk 1 h pix).width + (Image.mk 1 h pix).height) Carve.width
      have hloop2 : carveWidthLoop 0 ((Image.mk 1 h pix).width + (Image.mk 1 h pix).height)
          (Image.copy ⟨1, h, pix⟩) = none := by
        rw [hk]
        simp only [carveWidthLoop]
        rw [if_pos (by rw [hcw]; omega), carveonce_width_one hcw]
      simp [hloop, hloop2]
  · intro pix w
    unfold carve
    rw [if_neg (by show ¬(w < w ∨ (1 : Nat) < 0); omega)]
    have hch : (Image.copy ⟨w, 1, pix⟩).height = 1 := rfl
    have hloop := carveBothLoop_noop w 0 (Image.copy ⟨w, 1, pix⟩)
      (by show ¬(w < w ∧ _); omega)
      ((Image.mk w 1 pix).width + (Image.mk w 1 pix).height) Carve.width
    have hloop2 := carveWidthLoop_noop w (Image.copy ⟨w, 1, pix⟩)
      (by show ¬(w < w); omega) ((Image.mk w 1 pix).width + (Image.mk w 1 pix).height)
    have hloop3 : carveHeightLoop 0 ((Image.mk w 1 pix).width + (Image.mk w 1 pix).height)
        (Image.copy ⟨w, 1, pix⟩) = none := by
      have hk : (Image.mk w 1 pix).width + (Image.mk w 1 pix).height = w + 1 := rfl
      rw [hk]
      simp only [carveHeightLoop]
      rw [if_pos (by rw [hch]; omega), carveonce_height_one hch]
    simp [hloop, hloop2, hloop3]

/-- Witnesses for C4 (amended) on a 1×3 and a 4×1 image. -/
theorem c4_amended_degenerate_panics_witness :
    carve ⟨1, 3, fun _ _ => 5⟩ 0 1 = CarveResult.panic ∧
      carve ⟨4, 1, fun _ _ => 5⟩ 4 0 = CarveResult.panic :=
  ⟨c4_amended_degenerate_panics.1 (fun _ _ => 5) 3 1 (by omega),
    c4_amended_degenerate_panics.2 (fun _ _ => 5) 4⟩

/-- Counterexample for C4 as stated: asking the 1×2 image to shrink to
width 0 does not produce a DegenerateImage rejection (no `err` value at
all); the carve panics. -/
theorem c4_counterexample_no_degenerate_error :
    carve imgDegenerate 0 2 = CarveResult.panic := by
  have hcw : (Image.copy imgDegenerate).width = 1 := rfl
  unfold carve
  rw [if_neg (by show ¬((1 : Nat) < 0 ∨ (2 : Nat) < 2); omega)]
  have hloop := carveBothLoop_noop 0 2 (Image.copy imgDegenerate)
    (by show ¬(0 < 1 ∧ (2 : Nat) < 2); omega)
    (imgDegenerate.width + imgDegenerate.height) Carve.width
  have hloop2 : carveWidthLoop 0 (imgDegenerate.width + imgDegenerate.height)
      (Image.copy imgDegenerate) = none := by
    show carveWidthLoop 0 3 _ = none
    simp only [carveWidthLoop]
    rw [if_pos (by rw [hcw]; omega), carveonce_width_one hcw]
  simp [hloop, hloop2]

/-!
## The seam remover drops the wrong pixel (C1) and the forward-energy
## up-cost reads the wrong row (C2)
-/

/-- C1: the removers keep the seam pixel and drop its predecessor.  On
the 2×1 image `[10, 20]` with vertical seam `[1]`, the specified removal
leaves `[10]`; `remove_vertical_seam` writes pixel `0` to column `0` and
then (because its guard is `x < seam[y]`, not `x <= seam[y]`) writes the
seam pixel `20` over it, returning `[20]`.  `remove_horizontal_seam`
behaves transpose-symmetrically on the 1×2 image. -/
theorem c1_removers_keep_seam_pixel :
    (remove_vertical_seam imgTwoWide [1]).map
        (fun r => (r.width, r.height, r.pix 0 0)) = some (1, 1, 20) ∧
      (remove_horizontal_seam imgTwoTall [1]).map
        (fun r => (r.width, r.height, r.pix 0 0)) = some (1, 1, 20) ∧
      imgTwoWide.pix 0 0 = 10 ∧ imgTwoWide.pix 1 0 = 20 := by
  refine ⟨?_, ?_, rfl, rfl⟩ <;> rfl

/-- C2: `cost_candidate_pixel` computes the `up` transition cost from the
clamped neighbours of the **row above** (`y_above`), where the claim, the
spec, and the source's own comment (`CU(x,y) = D[(x−1,y),(x+1,y)]`) use
the neighbours at row `y`.  At cell `(0, 1)` of `imgC2` (whose only
nonzero sample, `3`, sits in row `0`) over the all-zero cost map, the
source stores cumulative cost `9 = (3−0)²`; the specified dynamic
program stores `0`. -/
theorem c2_up_cost_uses_row_above :
    cost_candidate_pixel imgC2 emapC2 0 1 = some ⟨9, 0⟩ ∧
      cost_candidate_pixel_spec imgC2 emapC2 0 1 = some ⟨0, 0⟩ ∧
      (9 : Nat) ≠ 0 := by
  refine ⟨?_, ?_, by omega⟩ <;> rfl

/-- C8: on the repository's 5×4 fixture energy grid, the base-energy
dynamic programs return the vertical seam `[2, 3, 4, 3]` and the
horizontal seam `[0, 1, 0, 1, 2]`. -/
theorem c8_fixture_seams :
    energy_to_vertical_seam fixtureEnergy = some [2, 3, 4, 3] ∧
      energy_to_horizontal_seam fixtureEnergy = some [0, 1, 0, 1, 2] := by
  constructor <;> rfl

/-!
## Tie-breaking of the dynamic programs (C3)
-/

theorem foldlMin_char (l : List (Nat × Nat)) (a : Nat × Nat) :
    (((l.foldl (fun best c => if c.2 < best.2 then c else best) a).2 ≤ a.2 ∧
        ∀ q ∈ l, (l.foldl (fun best c => if c.2 < best.2 then c else best) a).2 ≤ q.2) ∧
      (l.foldl (fun best c => if c.2 < best.2 then c else best) a = a ∨
        ∃ (i : Nat) (q : Nat × Nat), l[i]? = some q ∧
          l.foldl (fun best c => if c.2 < best.2 then c else best) a = q ∧
          (l.foldl (fun best c => if c.2 < best.2 then c else best) a).2 < a.2 ∧
          ∀ k, k < i → ∀ p : Nat × Nat, l[k]? = some p →
            (l.foldl (fun best c => if c.2 < best.2 then c else best) a).2 < p.2)) := by
  induction l generalizing a with
  | nil => exact ⟨⟨le_refl _, by simp⟩, Or.inl rfl⟩
  | cons q l ih =>
    by_cases hq : q.2 < a.2
    · have step : (q :: l).foldl (fun best c => if c.2 < best.2 then c else best) a
          = l.foldl (fun best c => if c.2 < best.2 then c else best) q := by
        simp [List.foldl_cons, if_pos hq]
      rw [step]
      obtain ⟨⟨hle, hmin⟩, hcase⟩ := ih q
      refine ⟨⟨le_trans hle (le_of_lt hq), ?_⟩, ?_⟩
      · intro p hp
        rcases List.mem_cons.mp hp with h | h
        · rw [h]; exact hle
        · exact hmin p h
      · rcases hcase with heq | ⟨i, p, hgi, heqp, hlt, hbef⟩
        · refine Or.inr ⟨0, q, by simp, heq, by rw [heq]; exact hq, ?_⟩
          intro k hk
          omega
        · refine Or.inr ⟨i + 1, p, by simpa using hgi, heqp, lt_trans hlt hq, ?_⟩
          intro k hk p2 hget
          cases k with
          | zero =>
              simp only [List.getElem?_cons_zero, Option.some.injEq] at hget
              rw [← hget]
              exact hlt
          | succ k2 =>
              simp only [List.getElem?_cons_succ] at hget
              exact hbef k2 (by omega) p2 hget
    · have step : (q :: l).foldl (fun best c => if c.2 < best.2 then c else best) a
          = l.foldl (fun best c => if c.2 < best.2 then c else best) a := by
        simp [List.foldl_cons, if_neg hq]
      rw [step]
      obtain ⟨⟨hle, hmin⟩, hcase⟩ := ih a
      refine ⟨⟨hle, ?_⟩, ?_⟩
      · intro p hp
        rcases List.mem_cons.mp hp with h | h
        · rw [h]; omega
        · exact hmin p h
      · rcases hcase with heq | ⟨i, p, hgi, heqp, hlt, hbef⟩
        · exact Or.inl heq
        · refine Or.inr ⟨i + 1, p, by simpa using hgi, heqp, hlt, ?_⟩
          intro k hk p2 hget
          cases k with
          | zero =>
              simp only [List.getElem?_cons_zero, Option.some.injEq] at hget
              rw [← hget]
              omega
          | succ k2 =>
              simp only [List.getElem?_cons_succ] at hget
              exact hbef k2 (by omega) p2 hget

/-- `firstMinSnd` returns the first pair of the list achieving the
minimal key: it is in the list, its key is minimal, and every pair
strictly before it has a strictly larger key. -/
theorem firstMinSnd_char {l : List (Nat × Nat)} {r : Nat × Nat}
    (h : firstMinSnd l = some r) :
    ∃ i : Nat, l[i]? = some r ∧ (∀ q ∈ l, r.2 ≤ q.2) ∧
      ∀ k, k < i → ∀ p : Nat × Nat, l[k]? = some p → r.2 < p.2 := by
  cases l with
  | nil => simp [firstMinSnd] at h
  | cons a l =>
    simp only [firstMinSnd, Option.some.injEq] at h
    obtain ⟨⟨hle, hmin⟩, hcase⟩ := foldlMin_char l a
    rw [h] at hle hmin hcase
    rcases hcase with heq | ⟨i, p, hgi, heqp, hlt, hbef⟩
    · refine ⟨0, by simpa using heq.symm, ?_, by omega⟩
      intro q hq
      rcases List.mem_cons.mp hq with hqa | hql
      · rw [hqa]; exact hle
      · exact hmin q hql
    · refine ⟨i + 1, by simpa using hgi.trans (congrArg some heqp.symm), ?_, ?_⟩
      · intro q hq
        rcases List.mem_cons.mp hq with hqa | hql
        · rw [hqa]; exact hle
        · exact hmin q hql
      · intro k hk p2 hget
        cases k with
        | zero =>
            simp only [List.getElem?_cons_zero, Option.some.injEq] at hget
            rw [← hget]
            exact hlt
        | succ k2 =>
            simp only [List.getElem?_cons_succ] at hget
            exact hbef k2 (by omega) p2 hget

/-- The compare-and-replace chain of `cost_candidate_pixel` computes
exactly the first minimum of its candidate list taken in the order up,
up-left, up-right: whenever the cell and its candidate totals are
defined, the stored `(parent, energy)` pair is `firstMinSnd` of
`ccpCandidates`. -/
theorem ccp_eq_firstMin {img : Image} {emap : TwoDMap EnergyAndBackPointer}
    {x y : Nat} {r : EnergyAndBackPointer} {cs : List (Nat × Nat)}
    (hr : cost_candidate_pixel img emap x y = some r)
    (hc : ccpCandidates img emap x y = some cs) :
    firstMinSnd cs = some (r.parent, r.energy) := by
  unfold cost_candidate_pixel cccStep at hr
  unfold ccpCandidates ccpTotalUp ccpTotalSide at hc
  cases hcu : ccpCostUp img x y with
  | none => rw [hcu] at hr; simp at hr
  | some cu =>
    cases he0 : emap.get x (wsub1 y) with
    | none => simp [hcu, he0] at hr
    | some e0 =>
      simp only [hcu, he0, Option.bind_eq_bind, Option.some_bind,
        Option.pure_def] at hr hc
      by_cases h0 : x = 0 <;> by_cases hmw : x = wsub1 img.width
      · -- both guards inactive: the only candidate is up
        subst h0
        rw [← hmw] at hr hc
        simp only [ne_eq, eq_self_iff_true, not_true_eq_false, if_false,
          Option.some_bind, Option.some.injEq] at hr hc
        subst hr
        subst hc
        simp [firstMinSnd]
      · -- up and up-right
        subst h0
        simp only [ne_eq, eq_self_iff_true, not_true_eq_false, if_false,
          hmw, not_false_eq_true, if_true, Option.some_bind] at hr hc
        cases he1 : emap.get (0 + 1) (wsub1 y) with
        | none => rw [he1] at hr; simp at hr
        | some e1 =>
          cases hd1 : eppO img 0 (wsub1 y) (0 + 1) y with
          | none => rw [he1, hd1] at hr; simp at hr
          | some d1 =>
            simp only [he1, hd1, Option.some_bind, Option.map_some',
              Option.some.injEq] at hr hc
            subst hr
            subst hc
            by_cases hlt : addu (addu cu e1.energy) d1 < addu cu e0.energy <;>
              simp [firstMinSnd, hlt]
      · -- up and up-left
        rw [← hmw] at hr hc
        simp only [ne_eq, h0, not_false_eq_true, if_true, eq_self_iff_true,
          not_true_eq_false, if_false, Option.some_bind] at hr hc
        cases he1 : emap.get (x - 1) (wsub1 y) with
        | none => rw [he1] at hr; simp at hr
        | some e1 =>
          cases hd1 : eppO img x (wsub1 y) (x - 1) y with
          | none => rw [he1, hd1] at hr; simp at hr
          | some d1 =>
            simp only [he1, hd1, Option.some_bind, Option.map_some',
              Option.some.injEq] at hr hc
            subst hr
            subst hc
            by_cases hlt : addu (addu cu e1.energy) d1 < addu cu e0.energy <;>
              simp [firstMinSnd, hlt]
      · -- all three candidates
        simp only [ne_eq, h0, hmw, not_false_eq_true, if_true,
          Option.some_bind] at hr hc
        cases he1 : emap.get (x - 1) (wsub1 y) with
        | none => rw [he1] at hr; simp at hr
        | some e1 =>
          cases hd1 : eppO img x (wsub1 y) (x - 1) y with
          | none => rw [he1, hd1] at hr; simp at hr
          | some d1 =>
            cases he2 : emap.get (x + 1) (wsub1 y) with
            | none => rw [he1, hd1, he2] at hr; simp at hr
            | some e2 =>
              cases hd2 : eppO img x (wsub1 y) (x + 1) y with
              | none => rw [he1, hd1, he2, hd2] at hr; simp at hr
              | some d2 =>
                simp only [he1, hd1, he2, hd2, Option.some_bind,
                  Option.map_some', Option.some.injEq] at hr hc
                subst hr
                subst hc
                by_cases hl1 : addu (addu cu e1.energy) d1 < addu cu e0.energy
                · rw [if_pos hl1]
                  by_cases hl2 : addu (addu cu e2.energy) d2 <
                      addu (addu cu e1.energy) d1
                  · simp [firstMinSnd, hl1, hl2]
                  · simp [firstMinSnd, hl1, hl2]
                · rw [if_neg hl1]
                  by_cases hl2 : addu (addu cu e2.energy) d2 < addu cu e0.energy
                  · simp [firstMinSnd, hl1, hl2]
                  · simp [firstMinSnd, hl1, hl2]

/-- The `min_by_key` selection of the `src/avisha1.rs` vertical dynamic
program stores as parent the **leftmost** candidate column achieving the
minimal cumulative energy: its key is minimal and the keys of all
candidates before it (which, over the ascending range `x-1 ..= x+1`,
means the up-left candidate is preferred to up and up) are strictly
larger. -/
theorem avisha1_cellV_leftmost {energy : TwoDMap Nat}
    {target : TwoDMap EnergyAndBackPointer} {mw x y : Nat}
    {cell : EnergyAndBackPointer} {cs : List (Nat × Nat)}
    (hcell : avisha1_cellV energy target mw x y = some cell)
    (hcs : keyedCells (fun j => target.get j (y - 1)) (avisha1Range x mw) = some cs) :
    ∃ (i : Nat) (p : Nat × Nat), cs[i]? = some p ∧ p.1 = cell.parent ∧
      (∀ q ∈ cs, p.2 ≤ q.2) ∧
      ∀ k, k < i → ∀ q : Nat × Nat, cs[k]? = some q → p.2 < q.2 := by
  unfold avisha1_cellV at hcell
  rw [hcs] at hcell
  cases herg : energy.get x y with
  | none => simp [herg] at hcell
  | some erg =>
    cases hpk : firstMinSnd cs with
    | none => simp [herg, hpk] at hcell
    | some pk =>
      cases hpar : target.get pk.1 (y - 1) with
      | none => simp [herg, hpk, hpar] at hcell
      | some par =>
        simp only [herg, hpk, hpar, Option.bind_eq_bind, Option.some_bind,
          Option.pure_def, Option.some.injEq] at hcell
        obtain ⟨i, hget, hmin, hbef⟩ := firstMinSnd_char hpk
        exact ⟨i, pk, hget, by rw [← hcell], hmin, hbef⟩

/-- C3 (amended): in the forward-energy builder `cost_candidate_pixel`,
ties are broken by the evaluation order up → up-left → up-right, first
minimum wins (the stored pair is the first minimum of the candidate list
in that order).  In the base-energy `energy_to_vertical_seam`
(`src/avisha1.rs`), however, the candidates are scanned in ascending
column order `x-1, x, x+1`, so the stored parent is the **leftmost**
column achieving the minimum: a tie between up-left and up is won by
up-left, not by up as the claim states. -/
theorem c3_amended_tie_orders :
    (∀ (img : Image) (emap : TwoDMap EnergyAndBackPointer) (x y : Nat)
        (r : EnergyAndBackPointer) (cs : List (Nat × Nat)),
        cost_candidate_pixel img emap x y = some r →
        ccpCandidates img emap x y = some cs →
        firstMinSnd cs = some (r.parent, r.energy)) ∧
      (∀ (energy : TwoDMap Nat) (target : TwoDMap EnergyAndBackPointer)
          (mw x y : Nat) (cell : EnergyAndBackPointer) (cs : List (Nat × Nat)),
        avisha1_cellV energy target mw x y = some cell →
        keyedCells (fun j => target.get j (y - 1)) (avisha1Range x mw) = some cs →
        ∃ (i : Nat) (p : Nat × Nat), cs[i]? = some p ∧ p.1 = cell.parent ∧
          (∀ q ∈ cs, p.2 ≤ q.2) ∧
          ∀ k, k < i → ∀ q : Nat × Nat, cs[k]? = some q → p.2 < q.2) :=
  ⟨fun _ _ _ _ _ _ hr hc => ccp_eq_firstMin hr hc,
    fun _ _ _ _ _ _ _ hcell hcs => avisha1_cellV_leftmost hcell hcs⟩

/-- Witness for C3 (amended): the forward builder at cell `(1, 1)` of
`imgC2` (candidates `[(1, 9), (0, 18)]`, up first) and the base-energy
cell `(1, 1)` over an all-zero first table row. -/
theorem c3_amended_tie_orders_witness :
    firstMinSnd [(1, 9), (0, 18)] =
        some ((⟨9, 1⟩ : EnergyAndBackPointer).parent,
          (⟨9, 1⟩ : EnergyAndBackPointer).energy) ∧
      ∃ (i : Nat) (p : Nat × Nat), ([(0, 0), (1, 0)] : List (Nat × Nat))[i]? = some p ∧
        p.1 = (⟨0, 0⟩ : EnergyAndBackPointer).parent ∧
        (∀ q ∈ ([(0, 0), (1, 0)] : List (Nat × Nat)), p.2 ≤ q.2) ∧
        ∀ k, k < i → ∀ q : Nat × Nat, ([(0, 0), (1, 0)] : List (Nat × Nat))[k]? = some q →
          p.2 < q.2 :=
  ⟨c3_amended_tie_orders.1 imgC2 emapC2 1 1 ⟨9, 1⟩ [(1, 9), (0, 18)] rfl rfl,
    c3_amended_tie_orders.2 gridC3 ⟨2, 2, [⟨0, 0⟩, ⟨0, 0⟩, ⟨0, 0⟩, ⟨0, 0⟩]⟩
      1 1 1 ⟨0, 0⟩ [(0, 0), (1, 0)] rfl rfl⟩

/-- Counterexample for C3 as stated: in `energy_to_vertical_seam` on
`gridC3`, the up (column 1) and up-left (column 0) predecessors of cell
`(1, 1)` tie at cumulative energy 0, yet the stored parent is 0
(up-left), not 1 (up) as the claimed up-first tie order requires, and
the traced seam is `[0, 1]` rather than the `[1, 1]` of the claimed
order. -/
theorem c3_counterexample_tie_goes_up_left :
    (avisha1_fillV gridC3).bind (fun t => t.get 1 1) = some ⟨0, 0⟩ ∧
      (avisha1_fillV gridC3).bind (fun t => (t.get 0 0).map (fun c => c.energy)) =
        some 0 ∧
      (avisha1_fillV gridC3).bind (fun t => (t.get 1 0).map (fun c => c.energy)) =
        some 0 ∧
      energy_to_vertical_seam gridC3 = some [0, 1] ∧
      (⟨0, 0⟩ : EnergyAndBackPointer).parent ≠ 1 :=
  ⟨rfl, rfl, rfl, rfl, by decide⟩

/-- Witness for C10 at the samples `2` and `7` (the order on which the
checked subtraction underflows). -/
theorem c10_luma_sub_wrapping_witness :
    energy_of_pair_luma 2 7 = (if (7 : Nat) ≤ 2 then 2 - 7 else 7 - 2) *
        (if (7 : Nat) ≤ 2 then 2 - 7 else 7 - 2) ∧
      ((energy_of_pair_luma_checked 2 7).isSome ↔ (7 : Nat) ≤ 2) :=
  c10_luma_sub_wrapping 2 7 (by norm_num) (by norm_num)

/-!
## Well-formedness of traced seams (C6)
-/

theorem optMapRange_spec {α : Type} {f : Nat → Option α} :
    ∀ {n : Nat} {xs : List α}, optMapRange f n = some xs →
      xs.length = n ∧ ∀ i, i < n → ∃ v, f i = some v ∧ xs[i]? = some v := by
  intro n
  induction n with
  | zero =>
    intro xs h
    simp only [optMapRange, Option.some.injEq] at h
    subst h
    exact ⟨rfl, by omega⟩
  | succ n ih =>
    intro xs h
    simp only [optMapRange, Option.bind_eq_bind] at h
    cases hprev : optMapRange f n with
    | none => rw [hprev] at h; simp at h
    | some ys =>
      rw [hprev] at h
      cases hfn : f n with
      | none => simp [hfn] at h
      | some v =>
        simp only [hfn, Option.some_bind, Option.pure_def, Option.some.injEq] at h
        subst h
        obtain ⟨hlen, hget⟩ := ih hprev
        refine ⟨by simp [hlen], ?_⟩
        intro i hi
        rcases Nat.lt_or_ge i n with hin | hin
        · obtain ⟨v2, hv2, hg2⟩ := hget i hin
          exact ⟨v2, hv2, by rw [List.getElem?_append_left (by omega)]; exact hg2⟩
        · have hieq : i = n := by omega
          subst hieq
          refine ⟨v, hfn, ?_⟩
          rw [← hlen]
          exact List.getElem?_concat_length ys v

theorem optFoldList_preserve {σ α : Type} {f : σ → α → Option σ} {P : σ → Prop}
    (hf : ∀ s a s2, f s a = some s2 → P s → P s2) :
    ∀ (l : List α) (s s3 : σ), optFoldList f s l = some s3 → P s → P s3 := by
  intro l
  induction l with
  | nil =>
    intro s s3 h hp
    simp only [optFoldList, Option.some.injEq] at h
    rwa [← h]
  | cons a as ih =>
    intro s s3 h hp
    simp only [optFoldList, Option.bind_eq_bind] at h
    cases hstep : f s a with
    | none => rw [hstep] at h; simp at h
    | some s1 =>
      rw [hstep] at h
      simp only [Option.some_bind] at h
      exact ih s1 s3 h (hf s a s1 hstep hp)

theorem TwoDMap.set_spec {P : Type} {m : TwoDMap P} {x y : Nat} {v : P}
    {m2 : TwoDMap P} (h : m.set x y v = some m2) :
    m2.width = m.width ∧ m2.height = m.height ∧
      m2.cells.length = m.cells.length ∧
      ∀ i, m2.cells[i]? =
        if i = y * m.width + x then some v else m.cells[i]? := by
  unfold TwoDMap.set at h
  split at h
  case isTrue hin =>
    simp only [Option.some.injEq] at h
    subst h
    refine ⟨rfl, rfl, by simp, ?_⟩
    intro i
    by_cases hi : i = y * m.width + x
    · subst hi
      rw [if_pos rfl]
      exact List.getElem?_set_self hin
    · rw [if_neg hi]
      exact List.getElem?_set_ne (fun hne => hi hne.symm)
  case isFalse => simp at h

theorem TwoDMap.setRow_spec {P : Type} {m : TwoDMap P} {y : Nat} {row : List P}
    {m2 : TwoDMap P} (h : m.setRow y row = some m2) :
    m2.width = m.width ∧ m2.height = m.height ∧
      m2.cells.length = m.cells.length ∧ row.length = m.width ∧
      ∀ x y2, x < m.width →
        m2.get x y2 = if y2 = y then row[x]? else m.get x y2 := by
  unfold TwoDMap.setRow at h
  split at h
  case isTrue hin =>
    obtain ⟨hrow, hle⟩ := hin
    simp only [Option.some.injEq] at h
    subst h
    have htake : (m.cells.take (y * m.width)).length = y * m.width :=
      List.length_take_of_le (by omega)
    refine ⟨rfl, rfl, ?_, hrow, ?_⟩
    · simp only [List.length_append, List.length_take, List.length_drop]
      omega
    · intro x y2 hx
      show (m.cells.take (y * m.width) ++ row ++
          m.cells.drop (y * m.width + m.width))[y2 * m.width + x]? = _
      rcases Nat.lt_trichotomy y2 y with hy | hy | hy
      · rw [if_neg (by omega)]
        have hidx : y2 * m.width + x < y * m.width := by
          have h1 : (y2 + 1) * m.width ≤ y * m.width :=
            Nat.mul_le_mul_right _ (by omega)
          have h2 : y2 * m.width + x < (y2 + 1) * m.width := by
            rw [Nat.succ_mul]
            omega
          omega
        rw [List.append_assoc,
          List.getElem?_append_left (by rw [htake]; exact hidx),
          List.getElem?_take_of_lt hidx]
        rfl
      · subst hy
        rw [if_pos rfl, List.append_assoc,
          List.getElem?_append_right (by rw [htake]; omega),
          List.getElem?_append_left (by rw [htake]; omega)]
        congr 1
        rw [htake]
        omega
      · rw [if_neg (by omega)]
        have hidx : y * m.width + m.width ≤ y2 * m.width + x := by
          have h1 : (y + 1) * m.width ≤ y2 * m.width :=
            Nat.mul_le_mul_right _ (by omega)
          rw [Nat.succ_mul] at h1
          omega
        rw [List.append_assoc,
          List.getElem?_append_right (by rw [htake]; omega),
          List.getElem?_append_right (by rw [hrow, htake]; omega),
          List.getElem?_drop]
        show _ = m.cells[y2 * m.width + x]?
        congr 1
        rw [hrow, htake]
        omega
  case isFalse => simp at h

theorem cccStep_parent {img : Image} {emap : TwoDMap EnergyAndBackPointer}
    {x y cu xa : Nat} {cur r2 : EnergyAndBackPointer}
    (h : cccStep img emap x y cu xa cur = some r2) :
    r2.parent = xa ∨ r2 = cur := by
  unfold cccStep at h
  cases he : emap.get xa (wsub1 y) with
  | none => simp [he] at h
  | some e =>
    cases hd : eppO img x (wsub1 y) xa y with
    | none => simp [he, hd] at h
    | some d =>
      simp only [he, hd, Option.bind_eq_bind, Option.some_bind, Option.pure_def,
        Option.some.injEq] at h
      split at h
      · exact Or.inl (by rw [← h])
      · exact Or.inr h.symm

/-- The parent stored by `cost_candidate_pixel` is the cell's own column
or, behind the corresponding edge guard, one of its two neighbours. -/
theorem cost_candidate_pixel_parent_shape {img : Image}
    {emap : TwoDMap EnergyAndBackPointer} {x y : Nat} {r : EnergyAndBackPointer}
    (hr : cost_candidate_pixel img emap x y = some r) :
    r.parent = x ∨ (x ≠ 0 ∧ r.parent = x - 1) ∨
      (x ≠ wsub1 img.width ∧ r.parent = x + 1) := by
  unfold cost_candidate_pixel at hr
  cases hcu : ccpCostUp img x y with
  | none => rw [hcu] at hr; simp at hr
  | some cu =>
    cases he0 : emap.get x (wsub1 y) with
    | none => simp [hcu, he0] at hr
    | some e0 =>
      simp only [hcu, he0, Option.bind_eq_bind, Option.some_bind] at hr
      have hfin : ∀ cur1 : EnergyAndBackPointer,
          (cur1.parent = x ∨ (x ≠ 0 ∧ cur1.parent = x - 1)) →
          (if x ≠ wsub1 img.width then cccStep img emap x y cu (x + 1) cur1
            else pure cur1) = some r →
          r.parent = x ∨ (x ≠ 0 ∧ r.parent = x - 1) ∨
            (x ≠ wsub1 img.width ∧ r.parent = x + 1) := by
        intro cur1 h1 hr2
        by_cases hmw : x = wsub1 img.width
        · rw [if_neg (by simpa using hmw)] at hr2
          simp only [Option.pure_def, Option.some.injEq] at hr2
          rcases h1 with hp | hp
          · exact Or.inl (by rw [← hr2]; exact hp)
          · exact Or.inr (Or.inl ⟨hp.1, by rw [← hr2]; exact hp.2⟩)
        · rw [if_pos hmw] at hr2
          rcases cccStep_parent hr2 with hp | hp
          · exact Or.inr (Or.inr ⟨hmw, hp⟩)
          · rcases h1 with hq | hq
            · exact Or.inl (by rw [hp]; exact hq)
            · exact Or.inr (Or.inl ⟨hq.1, by rw [hp]; exact hq.2⟩)
      by_cases h0 : x = 0
      · rw [if_neg (by simpa using h0)] at hr
        simp only [Option.pure_def, Option.some_bind] at hr
        exact hfin _ (Or.inl rfl) hr
      · rw [if_pos h0] at hr
        obtain ⟨cur1, hcur1, hr2⟩ := Option.bind_eq_some.mp hr
        have h1 : cur1.parent = x ∨ (x ≠ 0 ∧ cur1.parent = x - 1) := by
          rcases cccStep_parent hcur1 with hp | hp
          · exact Or.inr ⟨h0, hp⟩
          · exact Or.inl (by rw [hp])
        exact hfin cur1 h1 hr2

theorem costRowsAux_good {img : Image} (hw : img.width < U32) :
    ∀ (k y0 : Nat) (m m2 : TwoDMap EnergyAndBackPointer),
      optFoldList (fun m y => do
          let row ← optMapRange (fun x => cost_candidate_pixel img m x y) img.width
          m.setRow y row) m (List.range' y0 k) = some m2 →
      m2.width = m.width ∧ m2.height = m.height ∧
        m2.cells.length = m.cells.length ∧
        (∀ x y, x < m.width →
          (∃ c, m.get x y = some c ∧ ParentNear m.width x c) → y < y0 →
          ∃ c, m2.get x y = some c ∧ ParentNear m.width x c) ∧
        (∀ y, y0 ≤ y → y < y0 + k → ∀ x, x < m.width →
          ∃ c, m2.get x y = some c ∧ ParentNear m.width x c) := by
  intro k
  induction k with
  | zero =>
    intro y0 m m2 h
    rw [show List.range' y0 0 = [] from rfl] at h
    simp only [optFoldList, Option.some.injEq] at h
    subst h
    exact ⟨rfl, rfl, rfl, fun x y _ hc _ => hc, fun y hy1 hy2 => by omega⟩
  | succ k ih =>
    intro y0 m m2 h
    rw [List.range'_succ] at h
    simp only [optFoldList, Option.bind_eq_bind] at h
    obtain ⟨m1, hstep, hrest⟩ := Option.bind_eq_some.mp h
    obtain ⟨row, hrow, hset⟩ := Option.bind_eq_some.mp hstep
    obtain ⟨hrlen, hrget⟩ := optMapRange_spec hrow
    obtain ⟨hw1, hh1, hl1, hrow1, hget1⟩ := TwoDMap.setRow_spec hset
    have hwid : m.width = img.width := by rw [← hrow1, hrlen]
    -- row y0 of m1 is freshly written and each of its cells is
    -- `cost_candidate_pixel`, whose parent is near its column
    have hshaped : ∀ x, x < m.width →
        ∃ c, m1.get x y0 = some c ∧ ParentNear m.width x c := by
      intro x hx
      obtain ⟨c, hc, hcg⟩ := hrget x (by omega)
      refine ⟨c, ?_, ?_⟩
      · rw [hget1 x y0 hx, if_pos rfl]
        exact hcg
      · rcases cost_candidate_pixel_parent_shape hc with hp | ⟨hx0, hp⟩ | ⟨hxm, hp⟩
        · exact ⟨by omega, by omega, by omega⟩
        · refine ⟨by omega, by omega, by omega⟩
        · have hms : wsub1 img.width = img.width - 1 :=
            wsub1_eq_sub_one (by omega) hw
          rw [hms] at hxm
          have : x + 1 < img.width := by omega
          exact ⟨by omega, by omega, by omega⟩
    obtain ⟨hw2, hh2, hl2, hpres, hnew⟩ := ih (y0 + 1) m1 m2 hrest
    rw [hw1] at hw2 hpres hnew
    refine ⟨hw2, by rw [hh2, hh1], by rw [hl2, hl1], ?_, ?_⟩
    · intro x y hx hc hy
      refine hpres x y hx ?_ (by omega)
      obtain ⟨c, hcg, hcn⟩ := hc
      refine ⟨c, ?_, hcn⟩
      rw [hget1 x y hx, if_neg (by omega)]
      exact hcg
    · intro y hy1 hy2 x hx
      rcases Nat.eq_or_lt_of_le hy1 with hyy | hyy
      · exact hpres x y hx (by rw [← hyy]; exact hshaped x hx) (by omega)
      · exact hnew y (by omega) (by omega) x hx

/-- A successful `calculate_cost` yields a grid of the image's
dimensions whose rows `1 ≤ y < height` all carry near, in-range
back-pointers. -/
theorem calculate_cost_good {img : Image} {emap : TwoDMap EnergyAndBackPointer}
    (hw : img.width < U32) (h : calculate_cost img = some emap) :
    emap.width = img.width ∧ emap.height = img.height ∧
      emap.cells.length = img.width * img.height ∧ GoodParents emap := by
  unfold calculate_cost at h
  simp only [Option.bind_eq_bind] at h
  obtain ⟨e1, he1, h⟩ := Option.bind_eq_some.mp h
  obtain ⟨m1, hm1, h⟩ := Option.bind_eq_some.mp h
  obtain ⟨e2, he2, h⟩ := Option.bind_eq_some.mp h
  obtain ⟨m2, hm2, h⟩ := Option.bind_eq_some.mp h
  obtain ⟨m3, hm3, h⟩ := Option.bind_eq_some.mp h
  obtain ⟨hw1, hh1, hl1, _⟩ := TwoDMap.set_spec hm1
  obtain ⟨hw2, hh2, hl2, _⟩ := TwoDMap.set_spec hm2
  have hnew : (TwoDMap.new EnergyAndBackPointer img.width img.height).width
        = img.width ∧
      (TwoDMap.new EnergyAndBackPointer img.width img.height).height
        = img.height ∧
      (TwoDMap.new EnergyAndBackPointer img.width img.height).cells.length
        = img.width * img.height :=
    ⟨rfl, rfl, by simp only [TwoDMap.new, List.length_replicate]⟩
  have hm3P : m3.width = img.width ∧ m3.height = img.height ∧
      m3.cells.length = img.width * img.height := by
    refine optFoldList_preserve (P := fun m : TwoDMap EnergyAndBackPointer =>
        m.width = img.width ∧ m.height = img.height ∧
          m.cells.length = img.width * img.height) ?_ _ _ _ hm3
      ⟨by rw [hw2, hw1, hnew.1], by rw [hh2, hh1, hnew.2.1],
        by rw [hl2, hl1, hnew.2.2]⟩
    intro s a s2 hs hp
    obtain ⟨e, _, hset⟩ := Option.bind_eq_some.mp hs
    obtain ⟨hws, hhs, hls, _⟩ := TwoDMap.set_spec hset
    exact ⟨by rw [hws, hp.1], by rw [hhs, hp.2.1], by rw [hls, hp.2.2]⟩
  obtain ⟨hW, hH, hL, _, hrows⟩ :=
    costRowsAux_good hw (img.height - 1) 1 m3 emap h
  refine ⟨by rw [hW, hm3P.1], by rw [hH, hm3P.2.1],
    by rw [hL, hm3P.2.2], ?_⟩
  intro x y hx hy1 hy2
  have hxw : x < m3.width := by
    rw [hm3P.1]
    rw [hW, hm3P.1] at hx
    exact hx
  have hyr : y < 1 + (img.height - 1) := by
    rw [hH, hm3P.2.1] at hy2
    omega
  obtain ⟨c, hc, hn⟩ := hrows y hy1 hyr x hxw
  refine ⟨c, hc, ?_⟩
  have hweq : m3.width = emap.width := by rw [hW]
  rwa [hweq] at hn

theorem traceSeam_length {emap : TwoDMap EnergyAndBackPointer} :
    ∀ {y col : Nat} {s : List Nat}, traceSeam emap col y = some s →
      s.length = y + 1 ∧ s.getLast? = some col := by
  intro y
  induction y with
  | zero =>
    intro col s h
    unfold traceSeam at h
    cases hgc : emap.get col 0 with
    | none => rw [hgc] at h; simp at h
    | some c =>
      rw [hgc] at h
      simp only [Option.bind_eq_bind, Option.some_bind, Option.pure_def,
        Option.some.injEq] at h
      subst h
      exact ⟨rfl, rfl⟩
  | succ y ih =>
    intro col s h
    unfold traceSeam at h
    cases hgc : emap.get col (y + 1) with
    | none => rw [hgc] at h; simp at h
    | some c =>
      rw [hgc] at h
      simp only [Option.bind_eq_bind, Option.some_bind] at h
      obtain ⟨rest, hrest, hs⟩ := Option.bind_eq_some.mp h
      simp only [Option.pure_def, Option.some.injEq] at hs
      subst hs
      obtain ⟨hlen, _⟩ := ih hrest
      exact ⟨by simp [hlen], List.getLast?_concat rest⟩

theorem adjacent_append_singleton {l : List Nat} {a b : Nat}
    (hadj : Adjacent l) (hlast : l.getLast? = some a)
    (hn1 : b ≤ a + 1) (hn2 : a ≤ b + 1) : Adjacent (l ++ [b]) := by
  intro i p q hp hq
  have hq1 : i + 1 < l.length + 1 := by
    have := (List.getElem?_eq_some_iff.mp hq).1
    simpa using this
  rcases Nat.lt_or_ge (i + 1) l.length with hin | hin
  · rw [List.getElem?_append_left (by omega)] at hp
    rw [List.getElem?_append_left hin] at hq
    exact hadj i p q hp hq
  · have hieq : i + 1 = l.length := by omega
    rw [List.getElem?_append_right (by omega)] at hq
    rw [hieq, Nat.sub_self] at hq
    simp only [List.getElem?_cons_zero, Option.some.injEq] at hq
    rw [List.getElem?_append_left (by omega)] at hp
    rw [List.getLast?_eq_getElem? l] at hlast
    have hpa : p = a := by
      rw [show l.length - 1 = i from by omega] at hlast
      rw [hp] at hlast
      exact (Option.some.injEq _ _).mp hlast
    rw [hpa, ← hq]
    omega

theorem traceSeam_entries_adjacent {emap : TwoDMap EnergyAndBackPointer}
    (hg : GoodParents emap) :
    ∀ (y col : Nat) (s : List Nat), y < emap.height → col < emap.width →
      traceSeam emap col y = some s →
      (∀ i c : Nat, s[i]? = some c → c < emap.width) ∧ Adjacent s := by
  intro y
  induction y with
  | zero =>
    intro col s hy hcol h
    unfold traceSeam at h
    cases hgc : emap.get col 0 with
    | none => rw [hgc] at h; simp at h
    | some c =>
      rw [hgc] at h
      simp only [Option.bind_eq_bind, Option.some_bind, Option.pure_def,
        Option.some.injEq] at h
      subst h
      constructor
      · intro i v hv
        cases i with
        | zero =>
          simp only [List.getElem?_cons_zero, Option.some.injEq] at hv
          rw [← hv]
          exact hcol
        | succ i => simp at hv
      · intro i p q hp hq
        cases i <;> simp at hq
  | succ y ih =>
    intro col s hy hcol h
    unfold traceSeam at h
    cases hgc : emap.get col (y + 1) with
    | none => rw [hgc] at h; simp at h
    | some c =>
      rw [hgc] at h
      simp only [Option.bind_eq_bind, Option.some_bind] at h
      obtain ⟨rest, hrest, hs⟩ := Option.bind_eq_some.mp h
      simp only [Option.pure_def, Option.some.injEq] at hs
      subst hs
      obtain ⟨c2, hc2, hnear⟩ := hg col (y + 1) hcol (by omega) hy
      rw [hgc] at hc2
      have hcc : c2 = c := by injection hc2 with hx; exact hx.symm
      rw [hcc] at hnear
      obtain ⟨hpw, hp1, hp2⟩ := hnear
      obtain ⟨hent, hadj⟩ := ih c.parent rest (by omega) hpw hrest
      obtain ⟨hrlen, hrlast⟩ := traceSeam_length hrest
      constructor
      · intro i v hv
        rcases Nat.lt_or_ge i rest.length with hin | hin
        · rw [List.getElem?_append_left hin] at hv
          exact hent i v hv
        · rw [List.getElem?_append_right hin] at hv
          rcases Nat.lt_or_ge (i - rest.length) 1 with h1 | h1
          · rw [show i - rest.length = 0 from by omega] at hv
            simp only [List.getElem?_cons_zero, Option.some.injEq] at hv
            rw [← hv]
            exact hcol
          · rw [List.getElem?_eq_none (by simpa using h1)] at hv
            exact absurd hv (by simp)
      · exact adjacent_append_singleton hadj hrlast (by omega) (by omega)

/-- A seam produced by `energy_to_seam` over a grid with near, in-range
back-pointers has length `height`, entries below `width`, and adjacent
steps within distance one. -/
theorem energy_to_seam_wf {emap : TwoDMap EnergyAndBackPointer} {s : List Nat}
    (hg : GoodParents emap)
    (hlen : emap.cells.length = emap.width * emap.height)
    (hh : emap.height < U32) (h : energy_to_seam emap = some s) :
    s.length = emap.height ∧ (∀ i c : Nat, s[i]? = some c → c < emap.width) ∧
      Adjacent s := by
  unfold energy_to_seam at h
  simp only [Option.bind_eq_bind] at h
  obtain ⟨keyed, hkeyed, h⟩ := Option.bind_eq_some.mp h
  obtain ⟨pk, hpk, htrace⟩ := Option.bind_eq_some.mp h
  obtain ⟨hkl, hkget⟩ := optMapRange_spec hkeyed
  have hwpos : 0 < emap.width := by
    by_contra hw0
    have hknil : keyed = [] :=
      List.eq_nil_of_length_eq_zero (by rw [hkl]; omega)
    rw [hknil] at hpk
    simp [firstMinSnd] at hpk
  have hhpos : 0 < emap.height := by
    by_contra hh0
    obtain ⟨v, hv, _⟩ := hkget 0 hwpos
    have hhz : emap.height = 0 := by omega
    have hcnil : emap.cells = [] :=
      List.eq_nil_of_length_eq_zero (by rw [hlen, hhz, Nat.mul_zero])
    unfold TwoDMap.get at hv
    rw [hcnil] at hv
    simp at hv
  have hlr : wsub1 emap.height = emap.height - 1 := wsub1_eq_sub_one hhpos hh
  obtain ⟨i, hgi, _, _⟩ := firstMinSnd_char hpk
  have hiw : i < emap.width := by
    have := (List.getElem?_eq_some_iff.mp hgi).1
    omega
  obtain ⟨v, hv, hvg⟩ := hkget i hiw
  have hpkv : v = pk := by
    rw [hgi] at hvg
    exact (Option.some_inj.mp hvg).symm
  have hpk1 : pk.1 = i := by
    cases hgc : emap.get i (wsub1 emap.height) with
    | none => rw [hgc] at hv; simp at hv
    | some cc =>
      rw [hgc] at hv
      simp only [Option.map_some', Option.some.injEq] at hv
      rw [← hpkv, ← hv]
  obtain ⟨hent, hadj⟩ := traceSeam_entries_adjacent hg (wsub1 emap.height) pk.1 s
    (by omega) (by rw [hpk1]; exact hiw) htrace
  obtain ⟨hslen, _⟩ := traceSeam_length htrace
  exact ⟨by rw [hslen]; omega, hent, hadj⟩

theorem findSeam_wf {img : Image} {s : List Nat} (hw : img.width < U32)
    (hh : img.height < U32)
    (h : (calculate_cost img).bind energy_to_seam = some s) :
    s.length = img.height ∧ (∀ i c : Nat, s[i]? = some c → c < img.width) ∧
      Adjacent s := by
  obtain ⟨emap, hcc, hseam⟩ := Option.bind_eq_some.mp h
  obtain ⟨hW, hH, hL, hg⟩ := calculate_cost_good hw hcc
  have hres := energy_to_seam_wf hg (by rw [hW, hH]; exact hL)
    (by rw [hH]; exact hh) hseam
  rw [hW, hH] at hres
  exact hres

/-- C6: every seam the `AviShaTwo` seam finders produce is well-formed:
a vertical seam has length `height` with every entry in `[0, width)`, a
horizontal seam has length `width` with every entry in `[0, height)`,
and adjacent entries differ by at most one. -/
theorem c6_seams_well_formed :
    (∀ (img : Image) (s : List Nat), img.width < U32 → img.height < U32 →
        find_vertical_seam img = some s →
        s.length = img.height ∧
          (∀ i c : Nat, s[i]? = some c → c < img.width) ∧ Adjacent s) ∧
      (∀ (img : Image) (s : List Nat), img.width < U32 → img.height < U32 →
        find_horizontal_seam img = some s →
        s.length = img.width ∧
          (∀ i c : Nat, s[i]? = some c → c < img.height) ∧ Adjacent s) := by
  constructor
  · intro img s hw hh hf
    exact findSeam_wf hw hh hf
  · intro img s hw hh hf
    exact @findSeam_wf img.flip s hh hw hf

/-- Witness for C6 on the 2×2 image `imgWitness`, whose vertical and
horizontal seams are both `[0, 0]`. -/
theorem c6_seams_well_formed_witness :
    (([0, 0] : List Nat).length = imgWitness.height ∧
        (∀ i c : Nat, ([0, 0] : List Nat)[i]? = some c → c < imgWitness.width) ∧
        Adjacent [0, 0]) ∧
      (([0, 0] : List Nat).length = imgWitness.width ∧
        (∀ i c : Nat, ([0, 0] : List Nat)[i]? = some c → c < imgWitness.height) ∧
        Adjacent [0, 0]) :=
  ⟨c6_seams_well_formed.1 imgWitness [0, 0] (by decide) (by decide) rfl,
    c6_seams_well_formed.2 imgWitness [0, 0] (by decide) (by decide) rfl⟩

end PamSeam
